import Mathlib

/-!
Verification of core kernel components of an educational RISC-V OS
(stride scheduler, semaphores with banker-style deadlock detection,
mmap/munmap address-range bookkeeping, easy-fs bitmap allocator, block
cache, and VFS hard links), as a shallow embedding in Lean 4.

Each definition carries a note saying which source item it embeds.
-/

namespace RCore

/-! ## Scheduler and task state (src/os/src/config.rs, src/os/src/task) -/

/-- Constant BIG_STRIDE of src/os/src/config.rs ("big stride for stride
scheduling algorithm"). -/
def BIG_STRIDE : Nat := 100000

/-- Task status, from src/os/src/task/task.rs (enum TaskStatus). -/
inductive TaskStatus where
  | unInit
  | ready
  | running
  | zombie
deriving DecidableEq, Repr

/-- The scheduling-relevant mutable task state of TaskControlBlockInner
(src/os/src/task/task.rs): execution status, `proc_prio` and `proc_stride`. -/
structure TcbInner where
  taskStatus : TaskStatus
  procPrio : Nat
  procStride : Nat
deriving DecidableEq, Repr

/-- TaskManager.add (src/os/src/task/manager.rs): pushes a task into the
ready queue, a BinaryHeap of Reverse-ordered TcbPtr keyed by `proc_stride`
(so a min-heap on stride).  The heap is modelled as the multiset of queued
tasks, kept as a list. -/
def TaskManager.add (q : List TcbInner) (t : TcbInner) : List TcbInner :=
  q ++ [t]

/-- Index of the first task holding the minimal `proc_stride` in the queue. -/
def minStrideIdx (q : List TcbInner) : Nat :=
  match q with
  | [] => 0
  | t :: rest =>
    let i := minStrideIdx rest
    match rest.get? i with
    | some u => if t.procStride ≤ u.procStride then 0 else i + 1
    | none => 0

/-- TaskManager.fetch (src/os/src/task/manager.rs): pops the heap, which
returns a task whose `proc_stride` is minimal among the queued tasks
(which one among equals is unspecified by BinaryHeap; the model removes
the first minimal one). -/
def TaskManager.fetch (q : List TcbInner) : Option (TcbInner × List TcbInner) :=
  match q with
  | [] => none
  | _ :: _ =>
    let i := minStrideIdx q
    (q.get? i).map fun t => (t, q.eraseIdx i)

/-- suspend_current_and_run_next (src/os/src/task/mod.rs, lines 46-62):
the running task's status is set to Ready and the task is pushed back
into the ready queue.  Nothing else of the task is written: in
particular `proc_stride` is left untouched (no write to `proc_stride`
exists anywhere in the kernel sources outside initialization to 0). -/
def suspendCurrentAndRunNext (t : TcbInner) (q : List TcbInner) : List TcbInner :=
  TaskManager.add q { t with taskStatus := TaskStatus.ready }

/-- set_proc_prio (src/os/src/task/processor.rs, lines 143-148): writes
`proc_prio` of the current task, touching nothing else. -/
def setProcPrio (prio : Nat) (t : TcbInner) : TcbInner :=
  { t with procPrio := prio }

/-- sys_set_priority (src/os/src/syscall/process.rs, lines 268-278):
returns -1 when `prio <= 2`, otherwise stores `prio as usize` via
set_proc_prio and returns `prio`. -/
def sysSetPriority (prio : Int) (t : TcbInner) : Int × TcbInner :=
  if prio ≤ 2 then (-1, t) else (prio, setProcPrio prio.toNat t)

/-! ## Semaphores and deadlock-detection bookkeeping
(src/os/src/sync/semaphore.rs, src/os/src/syscall/sync.rs)

The thread control block referenced by this code (fields `res.tid`,
`allocation`, `need`) is declared in a source file not provided; its
relevant fields are modelled from the spec: "Each task also carries
`allocation` and `need` vectors keyed by semaphore id for deadlock
detection". -/

/-- Deadlock-detection view of one thread: its optional resource record
holding the thread id, and the `allocation` and `need` vectors keyed by
semaphore id. -/
structure ThreadState where
  res : Option Nat
  allocation : List (Nat × Int)
  need : List (Nat × Int)
deriving DecidableEq, Repr

/-- Semaphore::up's update of the woken waiter's `need` vector
(src/os/src/sync/semaphore.rs, lines 61-73): find the first entry keyed
by this semaphore, decrement it, and remove it when it drops to <= 0;
panic (None) when no entry is registered. -/
def decNeed : List (Nat × Int) → Nat → Option (List (Nat × Int))
  | [], _ => none
  | (s, c) :: rest, semId =>
    if s = semId then
      some (if c - 1 ≤ 0 then rest else (s, c - 1) :: rest)
    else
      (decNeed rest semId).map fun r => (s, c) :: r

/-- The `allocation` update shared by Semaphore::up and Semaphore::down
(src/os/src/sync/semaphore.rs): increment the first entry keyed by this
semaphore, or push a fresh entry (sem, 1) at the end. -/
def incAlloc : List (Nat × Int) → Nat → List (Nat × Int)
  | [], semId => [(semId, 1)]
  | (s, c) :: rest, semId =>
    if s = semId then (s, c + 1) :: rest else (s, c) :: incAlloc rest semId

/-- The `need` update of Semaphore::down (src/os/src/sync/semaphore.rs,
lines 100-109): increment the first entry keyed by this semaphore, or push
a fresh entry (sem, 1) at the end. -/
def incNeed : List (Nat × Int) → Nat → List (Nat × Int)
  | [], semId => [(semId, 1)]
  | (s, c) :: rest, semId =>
    if s = semId then (s, c + 1) :: rest else (s, c) :: incNeed rest semId

/-- State of one semaphore (SemaphoreInner of
src/os/src/sync/semaphore.rs): the signed count and the wait queue of
blocked tasks, in queue order. -/
structure SemState where
  count : Int
  waitQueue : List ThreadState
deriving DecidableEq, Repr

/-- The bookkeeping Semaphore::up applies to the waiter popped by its
second block: decrement/remove its `need` entry for this semaphore
(panicking when absent) and increment its `allocation` entry. -/
def chargeWaiter (semId : Nat) (t : ThreadState) : Option ThreadState :=
  (decNeed t.need semId).map fun need2 =>
    { t with need := need2, allocation := incAlloc t.allocation semId }

/-- Semaphore::up (src/os/src/sync/semaphore.rs, lines 40-89), literally:
increment `count`; then a FIRST block `if count <= 0` pops the front
waiter and wakes it without any bookkeeping; then a SECOND block
`if count <= 0` pops the next front waiter, charges it via need/allocation
bookkeeping, and wakes it.  Returns the new semaphore state together with
the list of waiters removed from the wait queue and woken, in order; None
models the panic inside the bookkeeping. -/
def Semaphore.up (semId : Nat) (st : SemState) : Option (SemState × List ThreadState) :=
  let count2 := st.count + 1
  let popped :=
    if count2 ≤ 0 then
      match st.waitQueue with
      | [] => (([] : List ThreadState), ([] : List ThreadState))
      | a :: rest => (rest, [a])
    else (st.waitQueue, [])
  if count2 ≤ 0 then
    match popped.1 with
    | [] => some ({ count := count2, waitQueue := popped.1 }, popped.2)
    | b :: rest =>
      (chargeWaiter semId b).map fun b2 =>
        ({ count := count2, waitQueue := rest }, popped.2 ++ [b2])
  else
    some ({ count := count2, waitQueue := popped.1 }, popped.2)

/-! ## VFS inode hard links (src/easy-fs/src/vfs.rs, src/os/src/syscall/fs.rs)

Directories are packed sequences of fixed-width entries (name, inode id);
DirEntry and DiskInode live in easy-fs source files not provided, so the
directory content and the per-inode hard-link counters are modelled from
the spec ("Directory entry: fixed-width record of (name, inode id)";
"a hard-link count"). -/

/-- On-disk state visible to Inode::link on the root directory: the packed
directory entries of the root inode and the link count of every disk
inode, as an association list keyed by inode id. -/
structure EfsState where
  rootDir : List (String × Nat)
  nlink : List (Nat × Nat)
deriving DecidableEq, Repr

/-- find_inode_id (src/easy-fs/src/vfs.rs, lines 79-94): scan the
directory entries in order and return the inode id of the first entry
whose name matches. -/
def findInodeId (dir : List (String × Nat)) (name : String) : Option Nat :=
  (dir.find? fun e => e.1 == name).map (·.2)

/-- DiskInode::increase_link_count as used by Inode::link: bump the hard
link count of the target inode. -/
def bumpNlink : List (Nat × Nat) → Nat → List (Nat × Nat)
  | [], _ => []
  | (i, c) :: rest, inodeId =>
    if i = inodeId then (i, c + 1) :: rest else (i, c) :: bumpNlink rest inodeId

/-- Inode::link (src/easy-fs/src/vfs.rs, lines 225-280), literally: if
`new_name` is already present, return false; otherwise, IF `old_name`
resolves, bump the target's link count and append a directory entry
(new_name, target id); in every case other than the early return the
function falls through to `block_cache_sync_all(); true` - including when
`old_name` is absent, where it returns true having changed nothing. -/
def Inode.link (st : EfsState) (oldName newName : String) : Bool × EfsState :=
  if (findInodeId st.rootDir newName).isSome then
    (false, st)
  else
    match findInodeId st.rootDir oldName with
    | some inodeId =>
      (true, { rootDir := st.rootDir ++ [(newName, inodeId)],
               nlink := bumpNlink st.nlink inodeId })
    | none => (true, st)

/-- sys_linkat (src/os/src/syscall/fs.rs, lines 103-116): -1 when the two
paths are equal, otherwise 0 when Inode::link returns true and -1 when it
returns false. -/
def sysLinkat (st : EfsState) (oldPath newPath : String) : Int × EfsState :=
  if oldPath = newPath then (-1, st)
  else
    let r := Inode.link st oldPath newPath
    (if r.1 then 0 else -1, r.2)

/-! ## Address-space range classification and mmap
(src/os/src/mm/memory_set.rs, src/os/src/mm/mod.rs)

Virtual page numbers are Nat; a MapArea's vpn_range is the half-open
interval [start, end).  The page-size arithmetic of VirtAddr (floor, ceil,
aligned; address.rs is not among the provided sources) is modelled from
the spec: pages are 4 KiB. -/

/-- PAGE_SIZE of src/os/src/config.rs. -/
def PAGE_SIZE : Nat := 4096

/-- Modelled from the spec: VirtAddr::floor of the missing address.rs -
the page number containing the address (pages are 4 KiB). -/
def vaFloor (a : Nat) : Nat := a / PAGE_SIZE

/-- Modelled from the spec: VirtAddr::ceil of the missing address.rs -
the first page number at or after the address. -/
def vaCeil (a : Nat) : Nat := (a + PAGE_SIZE - 1) / PAGE_SIZE

/-- Modelled from the spec: VirtAddr::aligned of the missing address.rs -
page alignment of an address. -/
def vaAligned (a : Nat) : Bool := a % PAGE_SIZE == 0

/-- A map area as far as range bookkeeping is concerned
(src/os/src/mm/memory_set.rs, struct MapArea): the half-open vpn range
[startVpn, endVpn) and the MapPermission bits
(R = 2, W = 4, X = 8, U = 16). -/
structure MmArea where
  startVpn : Nat
  endVpn : Nat
  perm : Nat
deriving DecidableEq, Repr

/-- CrossType (src/os/src/mm/memory_set.rs; the source spells the first
constructor "Sigle"). -/
inductive CrossType where
  | sigle (index : Nat)
  | multiple (sIdx : Nat) (len : Nat)
deriving DecidableEq, Repr

/-- MemorySet::is_conflict (src/os/src/mm/memory_set.rs, lines 331-343):
an areas list conflicts with [start, end) when some vpn of some area's
range satisfies start <= vpn < end. -/
def isConflict (areas : List MmArea) (s e : Nat) : Bool :=
  areas.any fun a =>
    (List.range (a.endVpn - a.startVpn)).any fun i =>
      s ≤ a.startVpn + i && a.startVpn + i < e

/-- The inner j-loop of MemorySet::is_vmm_fully_mapped
(src/os/src/mm/memory_set.rs, lines 363-382): walks the areas after the
starting one carrying (pre_end, cross_cnt); at each area it first STEPS
pre_end by one page, requires the stepped value to equal the area's start
vpn (else breaks), absorbs the area (cross_cnt += 1, pre_end = its end),
and breaks once `end <= end_vn`.  Returns the final (pre_end, cross_cnt). -/
def vmmInnerScan (e : Nat) : List MmArea → Nat → Nat → Nat × Nat
  | [], preEnd, cnt => (preEnd, cnt)
  | a :: rest, preEnd, cnt =>
    let pe := preEnd + 1
    if pe = a.startVpn then
      if e ≤ a.endVpn then (a.endVpn, cnt + 1)
      else vmmInnerScan e rest a.endVpn (cnt + 1)
    else (pe, cnt)

/-- The outer loop of MemorySet::is_vmm_fully_mapped
(src/os/src/mm/memory_set.rs, lines 346-394), scanning the sorted areas
from position `index`: the first area with
`start_vn <= start && start <= end_vn` is examined; `end <= end_vn` gives
Sigle(index); otherwise the inner scan runs from the next area and
Multiple(index, cross_cnt) is produced only when `cross_cnt > 0` and
`end < pre_end` strictly, else the whole call fails.  When no area wins
the closed-interval test the call fails. -/
def vmmScan (s e : Nat) : List MmArea → Nat → Except String CrossType
  | [], _ => Except.error "vmm range does't fully mapped!"
  | a :: rest, index =>
    if a.startVpn ≤ s ∧ s ≤ a.endVpn then
      if e ≤ a.endVpn then Except.ok (CrossType.sigle index)
      else
        let r := vmmInnerScan e rest a.endVpn 0
        if r.2 > 0 ∧ e < r.1 then Except.ok (CrossType.multiple index r.2)
        else Except.error "vmm range does't fully mapped!"
    else vmmScan s e rest (index + 1)

/-- MemorySet::is_vmm_fully_mapped (src/os/src/mm/memory_set.rs,
lines 346-394). -/
def isVmmFullyMapped (areas : List MmArea) (s e : Nat) : Except String CrossType :=
  vmmScan s e areas 0

/-- Full coverage of the half-open vpn range [s, e) by the map areas: the
property the claim says classification succeeds on. -/
def rangeFullyCovered (areas : List MmArea) (s e : Nat) : Prop :=
  ∀ vpn, s ≤ vpn → vpn < e → ∃ a ∈ areas, a.startVpn ≤ vpn ∧ vpn < a.endVpn

instance (areas : List MmArea) (s e : Nat) :
    Decidable (rangeFullyCovered areas s e) := by
  unfold rangeFullyCovered
  have : (∀ i < e - s, ∃ a ∈ areas, a.startVpn ≤ s + i ∧ s + i < a.endVpn) →
      ∀ vpn, s ≤ vpn → vpn < e → ∃ a ∈ areas, a.startVpn ≤ vpn ∧ vpn < a.endVpn := by
    intro h vpn hs he
    have := h (vpn - s) (by omega)
    simpa [Nat.add_sub_cancel' hs] using this
  exact decidable_of_iff
    (∀ i < e - s, ∃ a ∈ areas, a.startVpn ≤ s + i ∧ s + i < a.endVpn)
    ⟨this, fun h i hi => h (s + i) (by omega) (by omega)⟩

/-! ## mmap (src/os/src/mm/mod.rs alloc_check, src/os/src/mm/memory_set.rs mmap)

The frame allocator (frame_allocator.rs) is not among the provided
sources; its `is_enough` is modelled from the spec ("verifies sufficient
free frames"): the number of requested pages must not exceed the free
frames.  `freeFrames` is the model's input for the allocator state. -/

/-- Modelled from the spec: is_enough of the missing frame_allocator.rs -
`pages` frames can be allocated iff at least that many frames are free. -/
def isEnough (freeFrames pages : Nat) : Bool := pages ≤ freeFrames

/-- Failure causes of alloc_check, in source order
(src/os/src/mm/mod.rs, lines 37-78). -/
inductive MmapError where
  | notAligned
  | badPort
  | zeroPort
  | noMem
  | conflict
deriving DecidableEq, Repr

/-- alloc_check (src/os/src/mm/mod.rs, lines 37-78): checks, in order,
page alignment of `start`, `port & !0x7 != 0` (for a usize port this is
`8 <= port`), `port & 0x7 == 0`, is_enough(end_vpn - start_vpn), and
is_conflict over the current address space. -/
def allocCheck (freeFrames : Nat) (areas : List MmArea) (start e port : Nat) :
    Except MmapError (Nat × Nat) :=
  if ¬ vaAligned start then Except.error MmapError.notAligned
  else if 8 ≤ port then Except.error MmapError.badPort
  else if port % 8 = 0 then Except.error MmapError.zeroPort
  else if ¬ isEnough freeFrames (vaCeil e - vaFloor start) then Except.error MmapError.noMem
  else if isConflict areas (vaFloor start) (vaCeil e) then Except.error MmapError.conflict
  else Except.ok (start, e)

/-- The MapPermission derived from `port` by mmap
(src/os/src/mm/memory_set.rs, lines 426-435): U plus R for bit 0, W for
bit 1, X for bit 2. -/
def portPerm (port : Nat) : Nat :=
  16 + (if port % 2 = 1 then 2 else 0)
     + (if port / 2 % 2 = 1 then 4 else 0)
     + (if port / 4 % 2 = 1 then 8 else 0)

/-- MemorySet::push keeps `areas` sorted by start vpn
(src/os/src/mm/memory_set.rs, lines 89-97: push then sort_by_key, a
stable sort, modelled by insertion sort which is stable as well). -/
def insertArea (areas : List MmArea) (a : MmArea) : List MmArea :=
  (areas ++ [a]).insertionSort fun x y => x.startVpn ≤ y.startVpn

/-- mmap (src/os/src/mm/memory_set.rs, lines 424-440): run alloc_check on
[start, start+len) and, on success, insert one Framed area covering
[floor start, ceil (start+len)) with permission portPerm into the current
address space. -/
def mmap (freeFrames : Nat) (areas : List MmArea) (start len port : Nat) :
    Except MmapError (List MmArea) :=
  match allocCheck freeFrames areas start (start + len) port with
  | Except.error err => Except.error err
  | Except.ok (s, e) =>
    Except.ok (insertArea areas { startVpn := vaFloor s, endVpn := vaCeil e,
                                  perm := portPerm port })

/-- Spec-side reading of the claim's overlap condition: some page of the
requested range lies inside some existing map area. -/
def overlapsExisting (areas : List MmArea) (s e : Nat) : Prop :=
  ∃ a ∈ areas, ∃ p, a.startVpn ≤ p ∧ p < a.endVpn ∧ s ≤ p ∧ p < e

/-- Spec-side reading of the claim's permission for mmap: U (16) plus
R (2) when port bit 0 is set, W (4) when bit 1 is set, X (8) when
bit 2 is set. -/
def permSpec (port : Nat) : Nat :=
  16 + (if port.testBit 0 then 2 else 0) + (if port.testBit 1 then 4 else 0) +
    (if port.testBit 2 then 8 else 0)

/-! ## Process state and the deadlock-detection path of sys_semaphore_down
(src/os/src/syscall/sync.rs, lines 160-296 and 373-381)

The process control block referenced by this code (fields
`is_dl_det_enable`, `semaphore_list`, `tasks`) is declared in a source
file not provided; the fields are modelled as declared by their uses in
src/os/src/syscall/sync.rs. -/

/-- Process-level view of one semaphore slot: its `sem_id` and the inner
count plus wait queue of thread ids. -/
structure PSem where
  semId : Nat
  count : Int
  waitQueue : List Nat
deriving DecidableEq, Repr

/-- The process inner state used by the sync syscalls: the
deadlock-detection flag, the semaphore slots and the thread slots. -/
structure ProcState where
  isDlDetEnable : Bool
  semaphoreList : List (Option PSem)
  taskList : List (Option ThreadState)
deriving DecidableEq, Repr

/-- sys_enable_deadlock_detect (src/os/src/syscall/sync.rs,
lines 373-381): the `_enabled` argument is ignored; the flag is set to
true unconditionally and 0 is returned. -/
def sysEnableDeadlockDetect (enabled : Nat) (p : ProcState) : Int × ProcState :=
  let _ := enabled
  (0, { p with isDlDetEnable := true })

/-- The `work` vector of sys_semaphore_down (src/os/src/syscall/sync.rs,
lines 193-202): for each live semaphore, in list order, the pair
(sem_id, max(count, 0)). -/
def computeWork (sems : List (Option PSem)) : List (Nat × Int) :=
  sems.filterMap fun o => o.map fun sem => (sem.semId, max sem.count 0)

/-- One thread's snapshot taken by sys_semaphore_down: thread id,
copied allocation vector, and copied need vector - with (sem_id, 1)
pushed at the end for the calling thread (src/os/src/syscall/sync.rs,
lines 209-239). -/
structure Snap where
  tid : Nat
  allocation : List (Nat × Int)
  need : List (Nat × Int)
deriving DecidableEq, Repr

/-- The snapshot pass of sys_semaphore_down (src/os/src/syscall/sync.rs,
lines 209-239): skip empty task slots and threads without a resource
record; copy allocation and need in order; for the thread whose tid is
the caller's, push the extra entry (sem_id, 1) onto the copied need. -/
def buildSnaps (tidNow semId : Nat) (tasks : List (Option ThreadState)) : List Snap :=
  tasks.filterMap fun o =>
    o.bind fun t =>
      t.res.map fun tid =>
        { tid := tid,
          allocation := t.allocation,
          need := if tid = tidNow then t.need ++ [(semId, 1)] else t.need }

/-- The "is_enough" check of the banker loop (src/os/src/syscall/sync.rs,
lines 248-261): a thread's needs fit within `work` unless some need entry
and some work item share a sem id with the work amount strictly below the
needed amount. -/
def fitsWork (work needs : List (Nat × Int)) : Bool :=
  needs.all fun nc => work.all fun wi => !(wi.1 == nc.1 && decide (wi.2 < nc.2))

/-- Releasing one allocation amount into `work`
(src/os/src/syscall/sync.rs, lines 270-277): add the amount onto the
first work item with this sem id. -/
def addToWork : List (Nat × Int) → Nat → Int → List (Nat × Int)
  | [], _, _ => []
  | (ws, wc) :: rest, s, c =>
    if ws = s then (ws, wc + c) :: rest else (ws, wc) :: addToWork rest s c

/-- Releasing a finished thread's whole allocation vector into `work`;
None models the `.unwrap()` panic when an allocation's sem id has no work
item (src/os/src/syscall/sync.rs, lines 270-277). -/
def releaseAlloc (work : List (Nat × Int)) : List (Nat × Int) → Option (List (Nat × Int))
  | [] => some work
  | (s, c) :: rest =>
    if work.any fun wi => wi.1 == s then releaseAlloc (addToWork work s c) rest
    else none

/-- One pass of the banker loop (the `for (tid, finished) in &mut finish`
body, src/os/src/syscall/sync.rs, lines 244-283): walk the finish list in
order; each unfinished thread whose needs fit the current work releases
its allocations into work and is marked finished, raising the
"is_processing" flag.  None models the `.unwrap()` panics.  Returns the
updated finish list, the updated work, and the flag. -/
def bankerPass (snaps : List Snap) :
    List (Nat × Bool) → List (Nat × Int) → Option (List (Nat × Bool) × List (Nat × Int) × Bool)
  | [], work => some ([], work, false)
  | (tid, fin) :: rest, work =>
    if fin then
      (bankerPass snaps rest work).map fun r => ((tid, fin) :: r.1, r.2.1, r.2.2)
    else
      match snaps.find? fun sn => sn.tid == tid with
      | none => none
      | some sn =>
        if fitsWork work sn.need then
          match releaseAlloc work sn.allocation with
          | none => none
          | some w2 =>
            (bankerPass snaps rest w2).map fun r => ((tid, true) :: r.1, r.2.1, true)
        else
          (bankerPass snaps rest work).map fun r => ((tid, fin) :: r.1, r.2.1, r.2.2)

/-- The `while is_processing` loop of sys_semaphore_down
(src/os/src/syscall/sync.rs, lines 241-284), with explicit fuel: repeat
bankerPass until a pass reports no change.  The fuel is instantiated with
enough budget that it is never exhausted (each changed pass strictly
shrinks the unfinished set). -/
def bankerLoop (snaps : List Snap) :
    Nat → List (Nat × Bool) → List (Nat × Int) → Option (List (Nat × Bool) × List (Nat × Int))
  | 0, finish, work => some (finish, work)
  | fuel + 1, finish, work =>
    match bankerPass snaps finish work with
    | none => none
    | some (f2, w2, ch) => if ch then bankerLoop snaps fuel f2 w2 else some (f2, w2)

/-- Number of threads not yet marked finishable in a finish list; each
productive banker pass strictly shrinks it. -/
def countUnfinished (f : List (Nat × Bool)) : Nat :=
  (f.filter fun x => !x.2).length

/-- Thread update helper for Semaphore::down at process level: apply `f`
to the thread slot whose resource record carries `tid`. -/
def updateTaskByTid (ts : List (Option ThreadState)) (tid : Nat)
    (f : ThreadState → ThreadState) : List (Option ThreadState) :=
  ts.map fun o =>
    o.map fun t => if t.res = some tid then f t else t

/-- The semaphore operation `sem.down()` performed at the end of
sys_semaphore_down (src/os/src/sync/semaphore.rs, lines 92-126), at
process level for the calling thread: decrement the count; when it goes
negative, record need += 1 for the caller, append the caller to the wait
queue and block; otherwise record allocation += 1.  None models the
`.unwrap()` on a missing semaphore slot.  The Int result is the syscall
return value 0. -/
def performDown (semId tidNow : Nat) (p : ProcState) : Option (Int × ProcState) :=
  match p.semaphoreList.get? semId with
  | some (some sem) =>
    let c2 := sem.count - 1
    if c2 < 0 then
      some (0, { p with
        semaphoreList := p.semaphoreList.set semId
          (some { sem with count := c2, waitQueue := sem.waitQueue ++ [tidNow] }),
        taskList := updateTaskByTid p.taskList tidNow
          fun t => { t with need := incNeed t.need semId } })
    else
      some (0, { p with
        semaphoreList := p.semaphoreList.set semId (some { sem with count := c2 }),
        taskList := updateTaskByTid p.taskList tidNow
          fun t => { t with allocation := incAlloc t.allocation semId } })
  | _ => none

/-- sys_semaphore_down (src/os/src/syscall/sync.rs, lines 160-296): when
deadlock detection is enabled, build work and the snapshots, run the
banker loop to its fixed point, and return -0xDEAD with the process state
untouched when any thread is left unfinished; otherwise (and when
detection is disabled) perform the down.  None models the panics. -/
def sysSemaphoreDown (semId tidNow : Nat) (p : ProcState) : Option (Int × ProcState) :=
  if p.isDlDetEnable then
    let work := computeWork p.semaphoreList
    let snaps := buildSnaps tidNow semId p.taskList
    let finish := snaps.map fun sn => (sn.tid, false)
    match bankerLoop snaps (finish.length + 1) finish work with
    | none => none
    | some (f2, _) =>
      if f2.any fun x => !x.2 then some (-0xDEAD, p)
      else performDown semId tidNow p
  else performDown semId tidNow p

/-! ## easy-fs bitmap allocator (src/easy-fs/src/bitmap.rs)

A bitmap block is [u64; 64] (4096 bits); a Bitmap manages `blocks` such
blocks.  A block is modelled as the list of its 64 words, each a Nat
below 2^64; the bitmap state is the list of its blocks. -/

/-- Number of bits in one bitmap block (BLOCK_BITS = 512 * 8). -/
def BLOCK_BITS : Nat := 4096

/-- The all-ones 64-bit word (u64::MAX). -/
def U64MAX : Nat := 2 ^ 64 - 1

/-- u64::trailing_ones - the number of trailing one bits, which is the
index of the lowest zero bit (src/easy-fs/src/bitmap.rs, line 82). -/
def trailingOnes (w : Nat) : Nat :=
  if w % 2 = 1 then trailingOnes (w / 2) + 1 else 0
termination_by w
decreasing_by omega

/-- The closure body of Bitmap::alloc on one bitmap block
(src/easy-fs/src/bitmap.rs, lines 77-91): find the first 64-bit word not
equal to u64::MAX, take the lowest zero bit of that word via
trailing_ones, set that bit, and return the bit index within the block
together with the updated words. -/
def allocInBlock : List Nat → Option (Nat × List Nat)
  | [] => none
  | w :: rest =>
    if w ≠ U64MAX then
      some (trailingOnes w, (w ||| 1 <<< trailingOnes w) :: rest)
    else
      (allocInBlock rest).map fun r => (64 + r.1, w :: r.2)

/-- Bitmap::alloc (src/easy-fs/src/bitmap.rs, lines 70-97): scan the
managed bitmap blocks in order; the first block with a free bit yields
`block_id * BLOCK_BITS + bits64_pos * 64 + inner_pos`; None when every
block is full. -/
def Bitmap.alloc : List (List Nat) → Option (Nat × List (List Nat))
  | [] => none
  | b :: rest =>
    match allocInBlock b with
    | some r => some (r.1, r.2 :: rest)
    | none => (Bitmap.alloc rest).map fun r => (BLOCK_BITS + r.1, b :: r.2)

/-- Reading one allocation bit out of a list of 64-bit words: bit i lives
in word i / 64 at position i % 64. -/
def wordsBitGet (ws : List Nat) (i : Nat) : Bool :=
  match ws.get? (i / 64) with
  | some w => w.testBit (i % 64)
  | none => false

/-- Reading one allocation bit of the whole bitmap: bit i lives in block
i / BLOCK_BITS. -/
def bitGet (blocks : List (List Nat)) (i : Nat) : Bool :=
  match blocks.get? (i / BLOCK_BITS) with
  | some b => wordsBitGet b (i % BLOCK_BITS)
  | none => false

/-- Well-formedness of the bitmap state: every block holds exactly 64
words and every word is a 64-bit value. -/
def BitmapWF (blocks : List (List Nat)) : Prop :=
  ∀ b ∈ blocks, b.length = 64 ∧ ∀ w ∈ b, w < 2 ^ 64

instance (blocks : List (List Nat)) : Decidable (BitmapWF blocks) := by
  unfold BitmapWF
  infer_instance

/-! ## easy-fs block cache manager (src/easy-fs/src/block_cache.rs)

A queue entry is a pair (block id, Arc of the cache); the model keeps the
block id and the Arc strong count of the cache entry.  The buffer content
itself is irrelevant to the claim and not modelled. -/

/-- BLOCK_CACHE_SIZE (src/easy-fs/src/block_cache.rs, line 89). -/
def BLOCK_CACHE_SIZE : Nat := 16

/-- One queue slot of BlockCacheManager: the cached block id and the
strong reference count of its cache entry. -/
structure CacheEntry where
  blockId : Nat
  strongCount : Nat
deriving DecidableEq, Repr

/-- BlockCacheManager::get_block_cache (src/easy-fs/src/block_cache.rs,
lines 111-141): a hit returns the cached entry, leaving the queue as is;
a miss with a full queue first drains the first entry (scanning from the
front) whose strong count is exactly 1, panicking (None) when every entry
is shared; then the fresh block is appended at the tail (its strong count
is 2: the queue's clone plus the returned Arc).  Returns the entry given
back to the caller and the new queue. -/
def getBlockCache (q : List CacheEntry) (blockId : Nat) :
    Option (CacheEntry × List CacheEntry) :=
  match q.find? fun e => e.blockId == blockId with
  | some e => some (e, q)
  | none =>
    let q1 :=
      if q.length = BLOCK_CACHE_SIZE then
        match q.findIdx? fun e => e.strongCount == 1 with
        | some i => some (q.eraseIdx i)
        | none => none
      else some q
    q1.map fun q2 =>
      ({ blockId := blockId, strongCount := 2 },
       q2 ++ [{ blockId := blockId, strongCount := 2 }])

/-! ## Concrete fixtures used by counterexamples and witnesses -/

/-- A running task with the default priority 16 and stride 0
(the initialization of src/os/src/task/task.rs, lines 181-182). -/
def tcb0 : TcbInner := { taskStatus := TaskStatus.running, procPrio := 16, procStride := 0 }

/-- A semaphore with two blocked waiters (count -2), each having
registered one `need` unit for this semaphore via down. -/
def semTwoWaiters : SemState :=
  { count := -2,
    waitQueue := [{ res := some 1, allocation := [], need := [(0, 1)] },
                  { res := some 2, allocation := [], need := [(0, 1)] }] }

/-- A directory state whose only entry is ("b0", inode 5); the names
"a" and "c" are absent. -/
def efsNoOld : EfsState := { rootDir := [("b0", 5)], nlink := [(5, 1)] }

/-- A process in a classic circular-wait state: semaphores 0 and 1 both
taken (count 0); thread 1 holds semaphore 0, thread 2 holds semaphore 1
and needs semaphore 0.  Thread 1 is about to request semaphore 1. -/
def deadlockProc : ProcState :=
  { isDlDetEnable := true,
    semaphoreList := [some { semId := 0, count := 0, waitQueue := [] },
                      some { semId := 1, count := 0, waitQueue := [] }],
    taskList := [some { res := some 1, allocation := [(0, 1)], need := [] },
                 some { res := some 2, allocation := [(1, 1)], need := [(0, 1)] }] }

/-! ## Theorems -/

/-- Claim C1 (code bug, shown at the failing input): when the running task
with default priority 16 and stride 0 yields, suspend_current_and_run_next
returns it to the ready queue Ready with `proc_stride` still 0 - the
stride is NOT increased by BIG_STRIDE / prio = 6250, because no kernel
path ever writes `proc_stride` after its initialization. -/
theorem claim_C1 :
    suspendCurrentAndRunNext tcb0 [] = [{ tcb0 with taskStatus := TaskStatus.ready }] ∧
    (∀ t ∈ suspendCurrentAndRunNext tcb0 [], t.procStride = tcb0.procStride) ∧
    BIG_STRIDE / tcb0.procPrio = 6250 ∧
    tcb0.procStride + BIG_STRIDE / tcb0.procPrio ≠ tcb0.procStride := by
  refine ⟨rfl, ?_, by decide, by decide⟩
  intro t ht
  simp only [suspendCurrentAndRunNext, TaskManager.add, List.nil_append,
    List.mem_singleton] at ht
  simp [ht, tcb0]

/-- Claim C2 (code bug, shown at the failing input): on a semaphore with
count -2 and two queued waiters, Semaphore::up removes BOTH waiters from
the wait queue and wakes both - the first one without any need/allocation
bookkeeping - instead of removing exactly one; afterwards the wait queue
is empty while the count is still -1. -/
theorem claim_C2 :
    Semaphore.up 0 semTwoWaiters =
      some ({ count := -1, waitQueue := [] },
            [{ res := some 1, allocation := [], need := [(0, 1)] },
             { res := some 2, allocation := [(0, 1)], need := [] }]) ∧
    (∀ st2 woken, Semaphore.up 0 semTwoWaiters = some (st2, woken) →
      woken.length = 2 ∧ woken.length ≠ 1) := by
  refine ⟨by decide, ?_⟩
  intro st2 woken h
  have h0 : Semaphore.up 0 semTwoWaiters =
      some ({ count := -1, waitQueue := [] },
            [{ res := some 1, allocation := [], need := [(0, 1)] },
             { res := some 2, allocation := [(0, 1)], need := [] }]) := by decide
  rw [h0] at h
  cases h
  exact ⟨rfl, by decide⟩

/-- Claim C4 (code bug, shown at the failing inputs): with two adjacent
areas [0,4) and [4,8) - which fully cover the request [2,6) spanning a
contiguous run of two areas - is_vmm_fully_mapped returns an error
instead of Multiple, because its inner scan steps `pre_end` one page past
the previous area's half-open end before comparing it with the next
area's start; conversely, with areas [0,4) and [5,8) separated by the
unmapped page 4, the same request [2,6) is classified Ok(Multiple(0,1))
although it is not fully covered. -/
theorem claim_C4 :
    rangeFullyCovered [⟨0, 4, 0⟩, ⟨4, 8, 0⟩] 2 6 ∧
    (isVmmFullyMapped [⟨0, 4, 0⟩, ⟨4, 8, 0⟩] 2 6).toOption = none ∧
    ¬ rangeFullyCovered [⟨0, 4, 0⟩, ⟨5, 8, 0⟩] 2 6 ∧
    (isVmmFullyMapped [⟨0, 4, 0⟩, ⟨5, 8, 0⟩] 2 6).toOption =
      some (CrossType.multiple 0 1) := by
  refine ⟨by decide, by decide, by decide, by decide⟩

/-- Claim C6 (code bug, shown at the failing input): in a directory that
has no entry "a", Inode::link("a", "c") finds no target, changes nothing -
and still returns true, so sys_linkat reports success (0) instead of
failing for the missing link target. -/
theorem claim_C6 :
    findInodeId efsNoOld.rootDir "a" = none ∧
    Inode.link efsNoOld "a" "c" = (true, efsNoOld) ∧
    sysLinkat efsNoOld "a" "c" = (0, efsNoOld) := by
  refine ⟨by decide, by decide, by decide⟩

/-- Claim C9: sys_set_priority returns -1 leaving the task untouched for
every prio <= 2 (so a caller requesting prio = 2 sees failure), and for
every prio > 2 it returns prio and stores prio into `proc_prio`, leaving
status and stride unchanged. -/
theorem claim_C9 (prio : Int) (t : TcbInner) :
    (prio ≤ 2 → sysSetPriority prio t = (-1, t)) ∧
    (2 < prio →
      (sysSetPriority prio t).1 = prio ∧
      (sysSetPriority prio t).2.procPrio = prio.toNat ∧
      (sysSetPriority prio t).2.procStride = t.procStride ∧
      (sysSetPriority prio t).2.taskStatus = t.taskStatus) := by
  constructor
  · intro h
    simp [sysSetPriority, h]
  · intro h
    have hn : ¬ prio ≤ 2 := not_le.mpr h
    simp [sysSetPriority, hn, setProcPrio]

/-- Witness for claim C9: the failure at the boundary request prio = 2 and
the success at prio = 3, both at a concrete task. -/
theorem claim_C9_witness :
    sysSetPriority 2 tcb0 = (-1, tcb0) ∧
    (sysSetPriority 3 tcb0).1 = 3 ∧
    (sysSetPriority 3 tcb0).2.procPrio = 3 := by
  refine ⟨(claim_C9 2 tcb0).1 (by norm_num), ((claim_C9 3 tcb0).2 (by norm_num)).1, ?_⟩
  have h := ((claim_C9 3 tcb0).2 (by norm_num)).2.1
  simpa using h

/-- performDown never touches the deadlock-detection flag. -/
theorem performDown_flag (semId tid : Nat) (p : ProcState) (r : Int) (q : ProcState)
    (h : performDown semId tid p = some (r, q)) :
    q.isDlDetEnable = p.isDlDetEnable := by
  unfold performDown at h
  split at h
  · dsimp only at h
    split at h
    · cases h; rfl
    · cases h; rfl
  · cases h

/-- Claim C10: sys_enable_deadlock_detect ignores its argument - any two
argument values (0 included) act identically - sets the process's
deadlock-detection flag to enabled and returns 0; and the semaphore-down
path (the only other embedded operation touching process state) never
changes the flag, so nothing ever sets it back to disabled. -/
theorem claim_C10 (a b : Nat) (p : ProcState) :
    sysEnableDeadlockDetect a p = (0, { p with isDlDetEnable := true }) ∧
    sysEnableDeadlockDetect a p = sysEnableDeadlockDetect b p ∧
    (∀ semId tid r q, sysSemaphoreDown semId tid p = some (r, q) →
      q.isDlDetEnable = p.isDlDetEnable) := by
  refine ⟨rfl, rfl, ?_⟩
  intro semId tid r q h
  unfold sysSemaphoreDown at h
  split at h
  · dsimp only at h
    split at h
    · cases h
    · split at h
      · cases h; rfl
      · exact performDown_flag semId tid p r q h
  · exact performDown_flag semId tid p r q h

/-- Witness for claim C10: at the concrete deadlocked process, enabling
with argument 0 returns 0 and sets the flag, and the -0xDEAD return of
sys_semaphore_down leaves the flag as it was. -/
theorem claim_C10_witness :
    sysEnableDeadlockDetect 0 deadlockProc = (0, { deadlockProc with isDlDetEnable := true }) ∧
    deadlockProc.isDlDetEnable = deadlockProc.isDlDetEnable := by
  exact ⟨(claim_C10 0 1 deadlockProc).1,
    (claim_C10 0 1 deadlockProc).2.2 1 1 (-57005) deadlockProc (by decide)⟩

/-- A usize port has `port & !0x7 != 0` (that is, 8 <= port) exactly when
some bit of index at least 3 is set. -/
theorem eight_le_iff_high_testBit (port : Nat) :
    8 ≤ port ↔ ∃ k, 3 ≤ k ∧ port.testBit k := by
  constructor
  · intro h
    have hne : port ≠ 0 := by omega
    refine ⟨port.log2, ?_, ?_⟩
    · rw [Nat.le_log2 hne]
      exact h
    · have h1 : 2 ^ port.log2 ≤ port := Nat.log2_self_le hne
      have h2 : port < 2 ^ (port.log2 + 1) := Nat.lt_log2_self
      rw [pow_succ] at h2
      have hdiv : port / 2 ^ port.log2 = 1 :=
        Nat.div_eq_of_lt_le (by simpa using h1) (by omega)
      rw [Nat.testBit_to_div_mod, hdiv]
      decide
  · rintro ⟨k, hk3, hbit⟩
    rw [Nat.testBit_to_div_mod] at hbit
    have hmod : port / 2 ^ k % 2 = 1 := of_decide_eq_true hbit
    have hne : port / 2 ^ k ≠ 0 := by
      intro h0
      rw [h0] at hmod
      simp at hmod
    have hdiv : 1 ≤ port / 2 ^ k := Nat.one_le_iff_ne_zero.mpr hne
    have hle : 2 ^ k ≤ port := (Nat.one_le_div_iff (Nat.pos_pow_of_pos k (by norm_num))).1 hdiv
    have h8 : (8 : Nat) = 2 ^ 3 := by norm_num
    calc (8 : Nat) = 2 ^ 3 := h8
      _ ≤ 2 ^ k := Nat.pow_le_pow_right (by norm_num) hk3
      _ ≤ port := hle

/-- The executable conflict scan agrees with the declarative overlap
condition. -/
theorem isConflict_iff (areas : List MmArea) (s e : Nat) :
    isConflict areas s e = true ↔ overlapsExisting areas s e := by
  unfold isConflict overlapsExisting
  simp only [List.any_eq_true, List.mem_range, Bool.and_eq_true, decide_eq_true_eq]
  constructor
  · rintro ⟨a, ha, i, hi, h1, h2⟩
    exact ⟨a, ha, a.startVpn + i, by omega, by omega, h1, h2⟩
  · rintro ⟨a, ha, p, hp1, hp2, hp3, hp4⟩
    exact ⟨a, ha, p - a.startVpn, by omega, by omega, by omega⟩

/-- The permission computed by mmap from the low three port bits agrees
with the spec-side testBit reading. -/
theorem portPerm_eq_permSpec (port : Nat) : portPerm port = permSpec port := by
  unfold portPerm permSpec
  rw [Nat.testBit_to_div_mod, Nat.testBit_to_div_mod, Nat.testBit_to_div_mod]
  norm_num

/-- Claim C5: mmap(start, len, port) fails exactly when start is not
page-aligned, or port has a set bit outside the low three, or
port & 0x7 = 0, or fewer frames are free than pages requested, or some
requested page overlaps an existing area; on success it inserts exactly
one new area covering [floor start, ceil (start+len)) with permission
U plus R/W/X per the port bits (the sorted result is a permutation of the
old areas plus that single area). -/
theorem claim_C5 (freeFrames start len port : Nat) (areas : List MmArea) :
    ((mmap freeFrames areas start len port).isOk = false ↔
      start % PAGE_SIZE ≠ 0 ∨ (∃ k, 3 ≤ k ∧ port.testBit k) ∨ port % 8 = 0 ∨
      freeFrames < vaCeil (start + len) - vaFloor start ∨
      overlapsExisting areas (vaFloor start) (vaCeil (start + len))) ∧
    (∀ l, mmap freeFrames areas start len port = Except.ok l →
      List.Perm l (areas ++ [{ startVpn := vaFloor start, endVpn := vaCeil (start + len),
                               perm := permSpec port }])) := by
  have hiff : (mmap freeFrames areas start len port).isOk =
      (allocCheck freeFrames areas start (start + len) port).isOk := by
    unfold mmap
    rcases h : allocCheck freeFrames areas start (start + len) port with err | pr
    · rfl
    · rcases pr with ⟨s, e⟩
      rfl
  constructor
  · rw [hiff]
    unfold allocCheck
    by_cases h1 : vaAligned start = true
    · rw [if_neg (not_not_intro h1)]
      by_cases h2 : 8 ≤ port
      · rw [if_pos h2]
        exact iff_of_true rfl (Or.inr (Or.inl ((eight_le_iff_high_testBit port).1 h2)))
      · rw [if_neg h2]
        by_cases h3 : port % 8 = 0
        · rw [if_pos h3]
          exact iff_of_true rfl (Or.inr (Or.inr (Or.inl h3)))
        · rw [if_neg h3]
          by_cases h4 : isEnough freeFrames (vaCeil (start + len) - vaFloor start) = true
          · rw [if_neg (not_not_intro h4)]
            by_cases h5 : isConflict areas (vaFloor start) (vaCeil (start + len)) = true
            · rw [if_pos h5]
              exact iff_of_true rfl
                (Or.inr (Or.inr (Or.inr (Or.inr ((isConflict_iff areas _ _).1 h5)))))
            · rw [if_neg h5]
              refine iff_of_false (by simp [Except.isOk, Except.toBool]) ?_
              rintro (hc | hc | hc | hc | hc)
              · exact hc (by simpa [vaAligned] using h1)
              · exact h2 ((eight_le_iff_high_testBit port).2 hc)
              · exact h3 hc
              · have h4t : vaCeil (start + len) - vaFloor start ≤ freeFrames := by
                  simpa [isEnough] using h4
                omega
              · exact h5 ((isConflict_iff areas _ _).2 hc)
          · rw [if_pos h4]
            refine iff_of_true rfl (Or.inr (Or.inr (Or.inr (Or.inl ?_))))
            have h4f : ¬ vaCeil (start + len) - vaFloor start ≤ freeFrames := by
              simpa [isEnough] using h4
            omega
    · rw [if_pos h1]
      refine iff_of_true rfl (Or.inl ?_)
      intro hz
      exact h1 (by simpa [vaAligned] using hz)
  · intro l hl
    unfold mmap at hl
    rcases h : allocCheck freeFrames areas start (start + len) port with err | pr
    · rw [h] at hl
      cases hl
    · rcases pr with ⟨s, e⟩
      rw [h] at hl
      have hse : s = start ∧ e = start + len := by
        unfold allocCheck at h
        split at h
        · cases h
        · split at h
          · cases h
          · split at h
            · cases h
            · split at h
              · cases h
              · split at h
                · cases h
                · cases h; exact ⟨rfl, rfl⟩
      rcases hse with ⟨rfl, rfl⟩
      cases hl
      rw [← portPerm_eq_permSpec]
      unfold insertArea
      exact List.perm_insertionSort _ _

/-- Witness for claim C5: a concrete successful mmap of one page at
0x1000 with port 3 yields exactly the single area [1, 2) with
permission U|R|W = 22. -/
theorem claim_C5_witness :
    mmap 10 [] 4096 4096 3 =
      Except.ok [({ startVpn := 1, endVpn := 2, perm := 22 } : MmArea)] ∧
    List.Perm [({ startVpn := 1, endVpn := 2, perm := 22 } : MmArea)]
      ([] ++ [({ startVpn := 1, endVpn := 2, perm := permSpec 3 } : MmArea)]) := by
  refine ⟨by rfl, ?_⟩
  exact (claim_C5 10 4096 4096 3 []).2
    [({ startVpn := 1, endVpn := 2, perm := 22 } : MmArea)] (by rfl)

/-- find? on a split list whose prefix rejects the predicate finds the
split element. -/
theorem find?_split {α : Type} (p : α → Bool) (a : List α) (e : α) (b : List α)
    (ha : ∀ x ∈ a, p x = false) (he : p e = true) :
    (a ++ e :: b).find? p = some e := by
  induction a with
  | nil => simp [List.find?_cons, he]
  | cons y ys ih =>
    have hy : p y = false := ha y (by simp)
    simp only [List.cons_append, List.find?_cons, hy]
    exact ih fun x hx => ha x (by simp [hx])

/-- findIdx? with accumulator on a split list whose prefix rejects the
predicate reports the split position. -/
theorem findIdx?_split {α : Type} (p : α → Bool) (a : List α) (v : α) (b : List α)
    (ha : ∀ x ∈ a, p x = false) (hv : p v = true) :
    ∀ i, (a ++ v :: b).findIdx? p i = some (i + a.length) := by
  induction a with
  | nil => intro i; simp [List.findIdx?_cons, hv]
  | cons y ys ih =>
    intro i
    have hy : p y = false := ha y (by simp)
    simp only [List.cons_append, List.findIdx?_cons, hy, Bool.false_eq_true, if_false]
    rw [ih (fun x hx => ha x (by simp [hx])) (i + 1)]
    simp only [List.length_cons]
    congr 1
    omega

/-- A successful findIdx? (with accumulator i) yields an index below
i + length. -/
theorem findIdx?_lt_length {α : Type} (p : α → Bool) :
    ∀ (l : List α) (i j : Nat), l.findIdx? p i = some j → i ≤ j ∧ j < i + l.length := by
  intro l
  induction l with
  | nil => intro i j h; simp [List.findIdx?] at h
  | cons y ys ih =>
    intro i j h
    rw [List.findIdx?_cons] at h
    by_cases hy : p y
    · rw [if_pos hy] at h
      cases h
      simp
    · rw [if_neg hy] at h
      have := ih (i + 1) j h
      simp only [List.length_cons]
      omega

/-- eraseIdx at the split position removes the split element. -/
theorem eraseIdx_split {α : Type} (a : List α) (v : α) (b : List α) :
    (a ++ v :: b).eraseIdx a.length = a ++ b := by
  induction a with
  | nil => simp [List.eraseIdx]
  | cons y ys ih => simp [List.eraseIdx, ih]

/-- Claim C8: under the invariant that the cache queue holds at most 16
entries, get_block_cache preserves the bound; when the requested id is
cached it returns that entry with the queue untouched; on a miss with a
full queue it drops the frontmost entry whose reference count is exactly
one (everything before it being shared) and appends the new block at the
tail; and when all 16 entries are shared it fails fatally. -/
theorem claim_C8 (q : List CacheEntry) (blockId : Nat)
    (hlen : q.length ≤ BLOCK_CACHE_SIZE) :
    (∀ e q2, getBlockCache q blockId = some (e, q2) → q2.length ≤ BLOCK_CACHE_SIZE) ∧
    (∀ a e b, q = a ++ e :: b → (∀ x ∈ a, x.blockId ≠ blockId) → e.blockId = blockId →
      getBlockCache q blockId = some (e, q)) ∧
    (∀ a v b, (∀ x ∈ q, x.blockId ≠ blockId) → q.length = BLOCK_CACHE_SIZE →
      q = a ++ v :: b → (∀ x ∈ a, x.strongCount ≠ 1) → v.strongCount = 1 →
      getBlockCache q blockId =
        some ({ blockId := blockId, strongCount := 2 },
              (a ++ b) ++ [{ blockId := blockId, strongCount := 2 }])) ∧
    ((∀ x ∈ q, x.blockId ≠ blockId) → q.length = BLOCK_CACHE_SIZE →
      (∀ x ∈ q, x.strongCount ≠ 1) → getBlockCache q blockId = none) := by
  refine ⟨?_, ?_, ?_, ?_⟩
  · intro e q2 h
    unfold getBlockCache at h
    split at h
    · cases h
      exact hlen
    · dsimp only at h
      by_cases hfull : q.length = BLOCK_CACHE_SIZE
      · rw [if_pos hfull] at h
        rcases hidx : q.findIdx? (fun x => x.strongCount == 1) 0 with _ | i
        · rw [hidx] at h
          cases h
        · rw [hidx] at h
          cases h
          have hi : i < q.length := by
            have := findIdx?_lt_length (fun x => x.strongCount == 1) q 0 i hidx
            omega
          have hel : (q.eraseIdx i).length = q.length - 1 := by
            rw [List.length_eraseIdx]
            simp [hi]
          simp only [List.length_append, List.length_cons, List.length_nil, hel]
          omega
      · rw [if_neg hfull] at h
        cases h
        simp only [List.length_append, List.length_cons, List.length_nil]
        omega
  · intro a e b hq ha he
    unfold getBlockCache
    have : q.find? (fun x => x.blockId == blockId) = some e := by
      rw [hq]
      refine find?_split _ a e b ?_ (by simp [he])
      intro x hx
      simp [ha x hx]
    rw [this]
  · intro a v b habs hfull hq ha hv
    unfold getBlockCache
    have hnone : q.find? (fun x => x.blockId == blockId) = none := by
      rw [List.find?_eq_none]
      intro x hx
      simp [habs x hx]
    rw [hnone]
    dsimp only
    rw [if_pos hfull]
    have hidx : q.findIdx? (fun x => x.strongCount == 1) 0 = some a.length := by
      rw [hq]
      have := findIdx?_split (fun x : CacheEntry => x.strongCount == 1) a v b
        (fun x hx => by simp [ha x hx]) (by simp [hv]) 0
      simpa using this
    rw [hidx, hq]
    dsimp only
    rw [eraseIdx_split]
    rfl
  · intro habs hfull hshared
    unfold getBlockCache
    have hnone : q.find? (fun x => x.blockId == blockId) = none := by
      rw [List.find?_eq_none]
      intro x hx
      simp [habs x hx]
    rw [hnone]
    dsimp only
    rw [if_pos hfull]
    have hidx : q.findIdx? (fun x => x.strongCount == 1) 0 = none := by
      rw [List.findIdx?_eq_none_iff]
      intro x hx
      simp [hshared x hx]
    rw [hidx]
    rfl

/-- Witness for claim C8: a concrete full queue of 16 entries where only
the entry for block 3 is unshared; requesting absent block 99 evicts it
and appends block 99 at the tail, keeping the bound of 16. -/
theorem claim_C8_witness :
    getBlockCache [⟨0, 2⟩, ⟨1, 2⟩, ⟨2, 2⟩, ⟨3, 1⟩, ⟨4, 2⟩, ⟨5, 2⟩, ⟨6, 2⟩, ⟨7, 2⟩,
                   ⟨8, 2⟩, ⟨9, 2⟩, ⟨10, 2⟩, ⟨11, 2⟩, ⟨12, 2⟩, ⟨13, 2⟩, ⟨14, 2⟩, ⟨15, 2⟩] 99 =
      some ({ blockId := 99, strongCount := 2 },
            ([⟨0, 2⟩, ⟨1, 2⟩, ⟨2, 2⟩] ++ [⟨4, 2⟩, ⟨5, 2⟩, ⟨6, 2⟩, ⟨7, 2⟩, ⟨8, 2⟩, ⟨9, 2⟩,
              ⟨10, 2⟩, ⟨11, 2⟩, ⟨12, 2⟩, ⟨13, 2⟩, ⟨14, 2⟩, ⟨15, 2⟩]) ++
             [{ blockId := 99, strongCount := 2 }]) := by
  exact (claim_C8 [⟨0, 2⟩, ⟨1, 2⟩, ⟨2, 2⟩, ⟨3, 1⟩, ⟨4, 2⟩, ⟨5, 2⟩, ⟨6, 2⟩, ⟨7, 2⟩,
      ⟨8, 2⟩, ⟨9, 2⟩, ⟨10, 2⟩, ⟨11, 2⟩, ⟨12, 2⟩, ⟨13, 2⟩, ⟨14, 2⟩, ⟨15, 2⟩] 99
      (by decide)).2.2.1
    [⟨0, 2⟩, ⟨1, 2⟩, ⟨2, 2⟩] ⟨3, 1⟩
    [⟨4, 2⟩, ⟨5, 2⟩, ⟨6, 2⟩, ⟨7, 2⟩, ⟨8, 2⟩, ⟨9, 2⟩, ⟨10, 2⟩, ⟨11, 2⟩, ⟨12, 2⟩,
     ⟨13, 2⟩, ⟨14, 2⟩, ⟨15, 2⟩]
    (by decide) (by decide) rfl (by decide) rfl

/-- Every bit below the trailing-ones count is set. -/
theorem testBit_lt_trailingOnes : ∀ (w k : Nat), k < trailingOnes w → w.testBit k = true := by
  intro w
  induction w using Nat.strong_induction_on with
  | _ w ih =>
    intro k hk
    rw [trailingOnes] at hk
    by_cases hodd : w % 2 = 1
    · rw [if_pos hodd] at hk
      cases k with
      | zero =>
        rw [Nat.testBit_zero]
        simp [hodd]
      | succ k =>
        rw [Nat.testBit_succ]
        exact ih (w / 2) (by omega) k (by omega)
    · rw [if_neg hodd] at hk
      omega

/-- The bit at the trailing-ones count is clear: trailing_ones yields the
lowest zero bit. -/
theorem testBit_trailingOnes : ∀ (w : Nat), w.testBit (trailingOnes w) = false := by
  intro w
  induction w using Nat.strong_induction_on with
  | _ w ih =>
    rw [trailingOnes]
    by_cases hodd : w % 2 = 1
    · rw [if_pos hodd, Nat.testBit_succ]
      exact ih (w / 2) (by omega)
    · rw [if_neg hodd, Nat.testBit_zero]
      simp [hodd]

/-- For an n-bit word that is not all ones, the lowest zero bit is below n. -/
theorem trailingOnes_lt : ∀ (n w : Nat), w < 2 ^ n → w ≠ 2 ^ n - 1 → trailingOnes w < n := by
  intro n
  induction n with
  | zero =>
    intro w h1 h2
    simp only [pow_zero] at h1 h2
    omega
  | succ n ihn =>
    intro w h1 h2
    rw [trailingOnes]
    by_cases hodd : w % 2 = 1
    · rw [if_pos hodd]
      rw [pow_succ] at h1 h2
      have hw2 : w / 2 < 2 ^ n := by omega
      have hne : w / 2 ≠ 2 ^ n - 1 := by
        intro he
        apply h2
        have hp : 1 ≤ 2 ^ n := Nat.one_le_two_pow
        omega
      exact Nat.succ_lt_succ (ihn (w / 2) hw2 hne)
    · rw [if_neg hodd]
      omega

/-- Setting bit i of a word by or-ing in 1 <<< i sets exactly that bit. -/
theorem testBit_set (w i j : Nat) :
    (w ||| 1 <<< i).testBit j = if j = i then true else w.testBit j := by
  rw [Nat.shiftLeft_eq, one_mul, Nat.testBit_or, Nat.testBit_two_pow]
  by_cases h : j = i
  · simp [h]
  · simp [h, Ne.symm h]

/-- Reading a bit of a cons word list: below 64 it is in the head word. -/
theorem wordsBitGet_cons (w : Nat) (ws : List Nat) (i : Nat) :
    wordsBitGet (w :: ws) i = if i < 64 then w.testBit i else wordsBitGet ws (i - 64) := by
  unfold wordsBitGet
  by_cases h : i < 64
  · rw [if_pos h, Nat.div_eq_of_lt h]
    simp [Nat.mod_eq_of_lt h]
  · rw [if_neg h]
    have h1 : i / 64 = (i - 64) / 64 + 1 := by omega
    have h2 : i % 64 = (i - 64) % 64 := by omega
    rw [h1, h2]
    simp

/-- Reading a bit of a cons block list: below BLOCK_BITS it is in the
head block. -/
theorem bitGet_cons (b : List Nat) (bs : List (List Nat)) (i : Nat) :
    bitGet (b :: bs) i =
      if i < BLOCK_BITS then wordsBitGet b i else bitGet bs (i - BLOCK_BITS) := by
  unfold bitGet
  simp only [BLOCK_BITS]
  by_cases h : i < 4096
  · rw [if_pos h, Nat.div_eq_of_lt h]
    simp [Nat.mod_eq_of_lt h]
  · rw [if_neg h]
    have h1 : i / 4096 = (i - 4096) / 4096 + 1 := by omega
    have h2 : i % 4096 = (i - 4096) % 4096 := by omega
    rw [h1, h2]
    simp

/-- Every bit of a full (all words u64::MAX) 64-word block reads true. -/
theorem wordsBitGet_full (ws : List Nat) (hall : ∀ w ∈ ws, w = U64MAX)
    (hlen : ws.length = 64) : ∀ i < 4096, wordsBitGet ws i = true := by
  intro i hi
  unfold wordsBitGet
  rcases hw : ws.get? (i / 64) with _ | w
  · exfalso
    rw [List.get?_eq_none] at hw
    omega
  · have hmem := List.get?_mem hw
    dsimp only
    rw [hall w hmem]
    unfold U64MAX
    rw [Nat.testBit_two_pow_sub_one]
    simp only [decide_eq_true_eq]
    omega

/-- When the one-block scan finds no free bit every word is all ones. -/
theorem allocInBlock_none (ws : List Nat) (h : allocInBlock ws = none) :
    ∀ w ∈ ws, w = U64MAX := by
  induction ws with
  | nil => simp
  | cons w rest ih =>
    unfold allocInBlock at h
    by_cases hw : w ≠ U64MAX
    · rw [if_pos hw] at h
      cases h
    · rw [if_neg hw] at h
      push_neg at hw
      rw [Option.map_eq_none'] at h
      intro x hx
      rcases List.mem_cons.1 hx with rfl | hx'
      · exact hw
      · exact ih h x hx'

/-- The one-block scan returns the smallest free bit index of the block
and sets exactly that bit. -/
theorem allocInBlock_some (ws : List Nat) (hws : ∀ w ∈ ws, w < 2 ^ 64) :
    ∀ pos ws2, allocInBlock ws = some (pos, ws2) →
      pos < 64 * ws.length ∧
      wordsBitGet ws pos = false ∧
      (∀ j < pos, wordsBitGet ws j = true) ∧
      (∀ j, wordsBitGet ws2 j = if j = pos then true else wordsBitGet ws j) := by
  induction ws with
  | nil => intro pos ws2 h; cases h
  | cons w rest ih =>
    intro pos ws2 h
    unfold allocInBlock at h
    by_cases hw : w ≠ U64MAX
    · rw [if_pos hw] at h
      cases h
      have hw64 : w < 2 ^ 64 := hws w (by simp)
      have ht : trailingOnes w < 64 := by
        refine trailingOnes_lt 64 w hw64 ?_
        unfold U64MAX at hw
        exact hw
      refine ⟨?_, ?_, ?_, ?_⟩
      · simp only [List.length_cons]
        omega
      · rw [wordsBitGet_cons, if_pos ht]
        exact testBit_trailingOnes w
      · intro j hj
        rw [wordsBitGet_cons, if_pos (by omega)]
        exact testBit_lt_trailingOnes w j hj
      · intro j
        rw [wordsBitGet_cons, wordsBitGet_cons]
        by_cases hj : j < 64
        · rw [if_pos hj, if_pos hj, testBit_set]
        · rw [if_neg hj, if_neg hj, if_neg (by omega)]
    · rw [if_neg hw] at h
      push_neg at hw
      rcases ha : allocInBlock rest with _ | pr
      · rw [ha] at h
        cases h
      · rcases pr with ⟨p, r2⟩
        rw [ha] at h
        simp only [Option.map_some'] at h
        cases h
        have hrest := ih (fun x hx => hws x (by simp [hx])) p r2 ha
        have hwfull : ∀ j < 64, w.testBit j = true := by
          intro j hj
          rw [hw]
          unfold U64MAX
          rw [Nat.testBit_two_pow_sub_one]
          simp [hj]
        have hsub : 64 + p - 64 = p := by omega
        refine ⟨?_, ?_, ?_, ?_⟩
        · simp only [List.length_cons]
          omega
        · rw [wordsBitGet_cons, if_neg (by omega), hsub]
          exact hrest.2.1
        · intro j hj
          rw [wordsBitGet_cons]
          by_cases hj64 : j < 64
          · rw [if_pos hj64]
            exact hwfull j hj64
          · rw [if_neg hj64]
            exact hrest.2.2.1 (j - 64) (by omega)
        · intro j
          rw [wordsBitGet_cons, wordsBitGet_cons]
          by_cases hj64 : j < 64
          · rw [if_pos hj64, if_pos hj64, if_neg (by omega)]
          · rw [if_neg hj64, if_neg hj64, hrest.2.2.2 (j - 64)]
            by_cases hjp : j = 64 + p
            · rw [if_pos (by omega), if_pos hjp]
            · rw [if_neg (by omega), if_neg hjp]

/-- Claim C7: for a well-formed bitmap, Bitmap::alloc returns None exactly
when every bit of every managed block is already set; and when it returns
Some(i), i is the smallest free bit index over the managed blocks - every
bit below i reads set, bit i reads free - and the updated bitmap has
exactly bit i newly set. -/
theorem claim_C7 (blocks : List (List Nat)) (hwf : BitmapWF blocks) :
    (Bitmap.alloc blocks = none ↔
      ∀ i < blocks.length * BLOCK_BITS, bitGet blocks i = true) ∧
    (∀ pos blocks2, Bitmap.alloc blocks = some (pos, blocks2) →
      pos < blocks.length * BLOCK_BITS ∧
      bitGet blocks pos = false ∧
      (∀ j < pos, bitGet blocks j = true) ∧
      (∀ j, bitGet blocks2 j = if j = pos then true else bitGet blocks j)) := by
  induction blocks with
  | nil =>
    constructor
    · constructor
      · intro _ i hi
        simp at hi
      · intro _
        rfl
    · intro pos blocks2 h
      cases h
  | cons b bs ih =>
    have hb := hwf b (by simp)
    have hbs : BitmapWF bs := fun x hx => hwf x (by simp [hx])
    have IH := ih hbs
    rcases ha : allocInBlock b with _ | pr
    · have hfullw : ∀ w ∈ b, w = U64MAX := allocInBlock_none b ha
      have hbits : ∀ i < 4096, wordsBitGet b i = true := wordsBitGet_full b hfullw hb.1
      rcases hA : Bitmap.alloc bs with _ | pr'
      · have hal : Bitmap.alloc (b :: bs) = none := by
          unfold Bitmap.alloc
          rw [ha, hA]
          rfl
        constructor
        · rw [hal]
          constructor
          · intro _ i hi
            rw [bitGet_cons]
            simp only [BLOCK_BITS] at *
            by_cases hib : i < 4096
            · rw [if_pos hib]
              exact hbits i hib
            · rw [if_neg hib]
              refine IH.1.1 hA (i - 4096) ?_
              simp only [List.length_cons] at hi
              omega
          · intro _
            rfl
        · intro pos blocks2 h
          rw [hal] at h
          cases h
      · rcases pr' with ⟨p, r2⟩
        have hal : Bitmap.alloc (b :: bs) = some (BLOCK_BITS + p, b :: r2) := by
          unfold Bitmap.alloc
          rw [ha, hA]
          rfl
        have hrest := IH.2 p r2 hA
        have hsub : BLOCK_BITS + p - BLOCK_BITS = p := by omega
        constructor
        · rw [hal]
          constructor
          · intro h
            cases h
          · intro hall
            exfalso
            have h1 : bitGet (b :: bs) (BLOCK_BITS + p) = false := by
              rw [bitGet_cons, if_neg (by omega), hsub]
              exact hrest.2.1
            have h2 : bitGet (b :: bs) (BLOCK_BITS + p) = true := by
              refine hall _ ?_
              simp only [List.length_cons, BLOCK_BITS] at *
              omega
            rw [h1] at h2
            cases h2
        · intro pos blocks2 h
          rw [hal] at h
          cases h
          refine ⟨?_, ?_, ?_, ?_⟩
          · simp only [List.length_cons, BLOCK_BITS] at *
            omega
          · rw [bitGet_cons, if_neg (by omega), hsub]
            exact hrest.2.1
          · intro j hj
            rw [bitGet_cons]
            by_cases hj4 : j < BLOCK_BITS
            · rw [if_pos hj4]
              refine hbits j ?_
              simp only [BLOCK_BITS] at hj4
              omega
            · rw [if_neg hj4]
              refine hrest.2.2.1 (j - BLOCK_BITS) ?_
              simp only [BLOCK_BITS] at *
              omega
          · intro j
            rw [bitGet_cons, bitGet_cons]
            by_cases hj4 : j < BLOCK_BITS
            · rw [if_pos hj4, if_pos hj4, if_neg (by simp only [BLOCK_BITS] at *; omega)]
            · rw [if_neg hj4, if_neg hj4, hrest.2.2.2 (j - BLOCK_BITS)]
              by_cases hjp : j = BLOCK_BITS + p
              · rw [if_pos (by simp only [BLOCK_BITS] at *; omega), if_pos hjp]
              · rw [if_neg (by simp only [BLOCK_BITS] at *; omega), if_neg hjp]
    · rcases pr with ⟨p, b2⟩
      have hspec := allocInBlock_some b hb.2 p b2 ha
      have hp4 : p < 4096 := by
        have := hspec.1
        rw [hb.1] at this
        omega
      have hal : Bitmap.alloc (b :: bs) = some (p, b2 :: bs) := by
        unfold Bitmap.alloc
        rw [ha]
      constructor
      · rw [hal]
        constructor
        · intro h
          cases h
        · intro hall
          exfalso
          have h1 : bitGet (b :: bs) p = false := by
            rw [bitGet_cons, if_pos (by simp only [BLOCK_BITS]; omega)]
            exact hspec.2.1
          have h2 : bitGet (b :: bs) p = true := by
            refine hall _ ?_
            simp only [List.length_cons, BLOCK_BITS]
            omega
          rw [h1] at h2
          cases h2
      · intro pos blocks2 h
        rw [hal] at h
        cases h
        refine ⟨?_, ?_, ?_, ?_⟩
        · simp only [List.length_cons, BLOCK_BITS]
          omega
        · rw [bitGet_cons, if_pos (by simp only [BLOCK_BITS]; omega)]
          exact hspec.2.1
        · intro j hj
          rw [bitGet_cons, if_pos (by simp only [BLOCK_BITS]; omega)]
          exact hspec.2.2.1 j hj
        · intro j
          rw [bitGet_cons, bitGet_cons]
          by_cases hj4 : j < BLOCK_BITS
          · rw [if_pos hj4, if_pos hj4]
            exact hspec.2.2.2 j
          · rw [if_neg hj4, if_neg hj4, if_neg (by simp only [BLOCK_BITS] at *; omega)]

/-- Witness for claim C7: the single block whose first word is 3
(bits 0 and 1 set) allocates bit 2 - the smallest free index - and sets
exactly it (the word becomes 7). -/
theorem claim_C7_witness :
    Bitmap.alloc [3 :: List.replicate 63 0] = some (2, [7 :: List.replicate 63 0]) ∧
    bitGet [3 :: List.replicate 63 0] 2 = false ∧
    (∀ j < 2, bitGet [3 :: List.replicate 63 0] j = true) := by
  have h0 : trailingOnes 0 = 0 := by
    rw [trailingOnes]
    norm_num
  have h1 : trailingOnes 1 = 1 := by
    rw [trailingOnes]
    norm_num [h0]
  have h3 : trailingOnes 3 = 2 := by
    rw [trailingOnes]
    norm_num [h1]
  have hor : (3 : Nat) ||| 1 <<< 2 = 7 := by simp
  have hA : allocInBlock (3 :: List.replicate 63 0) = some (2, 7 :: List.replicate 63 0) := by
    unfold allocInBlock
    rw [if_pos (by norm_num [U64MAX]), h3, hor]
  have halloc : Bitmap.alloc [3 :: List.replicate 63 0] =
      some (2, [7 :: List.replicate 63 0]) := by
    unfold Bitmap.alloc
    rw [hA]
  have h := (claim_C7 [3 :: List.replicate 63 0] (by decide)).2 2
    [7 :: List.replicate 63 0] halloc
  exact ⟨halloc, h.2.1, h.2.2.1⟩

/-- Unfinished count ignores a finished head. -/
theorem countUnfinished_cons_true (tid : Nat) (r : List (Nat × Bool)) :
    countUnfinished ((tid, true) :: r) = countUnfinished r := by
  simp [countUnfinished]

/-- Unfinished count of an unfinished head. -/
theorem countUnfinished_cons_false (tid : Nat) (r : List (Nat × Bool)) :
    countUnfinished ((tid, false) :: r) = countUnfinished r + 1 := by
  simp [countUnfinished]

/-- A banker pass that reports no progress leaves finish list and work
untouched. -/
theorem bankerPass_noChange (snaps : List Snap) :
    ∀ (f : List (Nat × Bool)) (w : List (Nat × Int)) f2 w2,
      bankerPass snaps f w = some (f2, w2, false) → f2 = f ∧ w2 = w := by
  intro f
  induction f with
  | nil =>
    intro w f2 w2 h
    unfold bankerPass at h
    simp only [Option.some_inj, Prod.mk.injEq] at h
    exact ⟨h.1.symm, h.2.1.symm⟩
  | cons x rest ih =>
    rcases x with ⟨tid, fin⟩
    intro w f2 w2 h
    unfold bankerPass at h
    by_cases hfin : fin = true
    · rw [if_pos hfin] at h
      rcases hp : bankerPass snaps rest w with _ | r
      · rw [hp] at h
        cases h
      · rcases r with ⟨r1, rw1, rch⟩
        rw [hp] at h
        simp only [Option.map_some', Option.some_inj, Prod.mk.injEq] at h
        obtain ⟨h1, h2, h3⟩ := h
        subst h3
        rcases ih w r1 rw1 hp with ⟨he1, he2⟩
        subst he1
        subst he2
        exact ⟨h1.symm, h2.symm⟩
    · rw [if_neg hfin] at h
      rcases hf : snaps.find? (fun sn => sn.tid == tid) with _ | sn
      · rw [hf] at h
        cases h
      · rw [hf] at h
        dsimp only at h
        by_cases hfw : fitsWork w sn.need = true
        · rw [if_pos hfw] at h
          rcases hr : releaseAlloc w sn.allocation with _ | w2x
          · rw [hr] at h
            cases h
          · rw [hr] at h
            dsimp only at h
            rcases hq : bankerPass snaps rest w2x with _ | r
            · rw [hq] at h
              cases h
            · rw [hq] at h
              simp only [Option.map_some', Option.some_inj, Prod.mk.injEq] at h
              exact absurd h.2.2 (by simp)
        · rw [if_neg hfw] at h
          rcases hp : bankerPass snaps rest w with _ | r
          · rw [hp] at h
            cases h
          · rcases r with ⟨r1, rw1, rch⟩
            rw [hp] at h
            simp only [Option.map_some', Option.some_inj, Prod.mk.injEq] at h
            obtain ⟨h1, h2, h3⟩ := h
            subst h3
            rcases ih w r1 rw1 hp with ⟨he1, he2⟩
            subst he1
            subst he2
            exact ⟨h1.symm, h2.symm⟩

/-- Each banker pass never grows, and each productive pass strictly
shrinks, the number of unfinished threads. -/
theorem bankerPass_count (snaps : List Snap) :
    ∀ (f : List (Nat × Bool)) (w : List (Nat × Int)) f2 w2 ch,
      bankerPass snaps f w = some (f2, w2, ch) →
      countUnfinished f2 ≤ countUnfinished f ∧
      (ch = true → countUnfinished f2 < countUnfinished f) := by
  intro f
  induction f with
  | nil =>
    intro w f2 w2 ch h
    unfold bankerPass at h
    simp only [Option.some_inj, Prod.mk.injEq] at h
    obtain ⟨h1, _, h3⟩ := h
    subst h1
    constructor
    · exact le_rfl
    · intro hc
      rw [hc] at h3
      cases h3
  | cons x rest ih =>
    rcases x with ⟨tid, fin⟩
    intro w f2 w2 ch h
    unfold bankerPass at h
    by_cases hfin : fin = true
    · rw [if_pos hfin] at h
      subst hfin
      rcases hp : bankerPass snaps rest w with _ | r
      · rw [hp] at h
        cases h
      · rcases r with ⟨r1, rw1, rch⟩
        rw [hp] at h
        simp only [Option.map_some', Option.some_inj, Prod.mk.injEq] at h
        obtain ⟨h1, _, h3⟩ := h
        subst h1
        subst h3
        rcases ih w r1 rw1 rch hp with ⟨hle, hlt⟩
        constructor
        · rw [countUnfinished_cons_true, countUnfinished_cons_true]
          exact hle
        · intro hc
          have := hlt hc
          rw [countUnfinished_cons_true, countUnfinished_cons_true]
          exact this
    · rw [if_neg hfin] at h
      have hfin2 : fin = false := by
        cases fin
        · rfl
        · exact absurd rfl hfin
      subst hfin2
      rcases hf : snaps.find? (fun sn => sn.tid == tid) with _ | sn
      · rw [hf] at h
        cases h
      · rw [hf] at h
        dsimp only at h
        by_cases hfw : fitsWork w sn.need = true
        · rw [if_pos hfw] at h
          rcases hr : releaseAlloc w sn.allocation with _ | w2x
          · rw [hr] at h
            cases h
          · rw [hr] at h
            dsimp only at h
            rcases hq : bankerPass snaps rest w2x with _ | r
            · rw [hq] at h
              cases h
            · rcases r with ⟨r1, rw1, rch⟩
              rw [hq] at h
              simp only [Option.map_some', Option.some_inj, Prod.mk.injEq] at h
              obtain ⟨h1, _, h3⟩ := h
              subst h1
              subst h3
              rcases ih w2x r1 rw1 rch hq with ⟨hle, _⟩
              constructor
              · rw [countUnfinished_cons_true, countUnfinished_cons_false]
                omega
              · intro _
                rw [countUnfinished_cons_true, countUnfinished_cons_false]
                omega
        · rw [if_neg hfw] at h
          rcases hp : bankerPass snaps rest w with _ | r
          · rw [hp] at h
            cases h
          · rcases r with ⟨r1, rw1, rch⟩
            rw [hp] at h
            simp only [Option.map_some', Option.some_inj, Prod.mk.injEq] at h
            obtain ⟨h1, _, h3⟩ := h
            subst h1
            subst h3
            rcases ih w r1 rw1 rch hp with ⟨hle, hlt⟩
            constructor
            · rw [countUnfinished_cons_false, countUnfinished_cons_false]
              omega
            · intro hc
              have := hlt hc
              rw [countUnfinished_cons_false, countUnfinished_cons_false]
              omega

/-- Run with enough fuel, the banker loop lands on a fixed point of the
pass: a final state that a further pass leaves unchanged. -/
theorem bankerLoop_fixpoint (snaps : List Snap) :
    ∀ (fuel : Nat) (f : List (Nat × Bool)) (w : List (Nat × Int)) f2 w2,
      countUnfinished f < fuel →
      bankerLoop snaps fuel f w = some (f2, w2) →
      bankerPass snaps f2 w2 = some (f2, w2, false) := by
  intro fuel
  induction fuel with
  | zero =>
    intro f w f2 w2 hc h
    omega
  | succ fuel ih =>
    intro f w f2 w2 hc h
    unfold bankerLoop at h
    rcases hp : bankerPass snaps f w with _ | r
    · rw [hp] at h
      cases h
    · rcases r with ⟨fa, wa, ch⟩
      rw [hp] at h
      dsimp only at h
      cases ch
      · rw [if_neg (by simp : ¬ (false = true))] at h
        simp only [Option.some_inj, Prod.mk.injEq] at h
        obtain ⟨h1, h2⟩ := h
        subst h1
        subst h2
        rcases bankerPass_noChange snaps f w fa wa hp with ⟨he1, he2⟩
        subst he1
        subst he2
        exact hp
      · rw [if_pos rfl] at h
        have hlt := (bankerPass_count snaps f w fa wa true hp).2 rfl
        exact ih fa wa f2 w2 (by omega) h

/-- performDown always reports syscall result 0. -/
theorem performDown_ret (semId tid : Nat) (p : ProcState) (r : Int) (q : ProcState)
    (h : performDown semId tid p = some (r, q)) : r = 0 := by
  unfold performDown at h
  split at h
  · dsimp only at h
    split at h
    · cases h
      rfl
    · cases h
      rfl
  · cases h

/-- Claim C3: with deadlock detection enabled, sys_semaphore_down runs the
banker iteration - work = max(count, 0) per live semaphore and every
thread's allocation/need snapshot with the caller's request appended, as
embedded in computeWork and buildSnaps - to a genuine fixed point of the
marking pass, and returns -0xDEAD with the process state untouched (no
blocking, no down) exactly when some thread is still unfinishable at that
fixed point; otherwise it performs the down. -/
theorem claim_C3 (semId tidNow : Nat) (p : ProcState)
    (f2 : List (Nat × Bool)) (w2 : List (Nat × Int))
    (hEn : p.isDlDetEnable = true)
    (hRun : bankerLoop (buildSnaps tidNow semId p.taskList)
        (((buildSnaps tidNow semId p.taskList).map fun sn => (sn.tid, false)).length + 1)
        ((buildSnaps tidNow semId p.taskList).map fun sn => (sn.tid, false))
        (computeWork p.semaphoreList) = some (f2, w2)) :
    bankerPass (buildSnaps tidNow semId p.taskList) f2 w2 = some (f2, w2, false) ∧
    (sysSemaphoreDown semId tidNow p = some (-0xDEAD, p) ↔
      (f2.any fun x => !x.2) = true) ∧
    ((f2.any fun x => !x.2) = false →
      sysSemaphoreDown semId tidNow p = performDown semId tidNow p) := by
  have hcount :
      countUnfinished ((buildSnaps tidNow semId p.taskList).map fun sn => (sn.tid, false)) <
      ((buildSnaps tidNow semId p.taskList).map fun sn => (sn.tid, false)).length + 1 := by
    have hle := List.length_filter_le (fun x : Nat × Bool => !x.2)
      ((buildSnaps tidNow semId p.taskList).map fun sn => (sn.tid, false))
    unfold countUnfinished
    omega
  have hfix := bankerLoop_fixpoint (buildSnaps tidNow semId p.taskList) _ _ _ f2 w2 hcount hRun
  have hsys : sysSemaphoreDown semId tidNow p =
      if f2.any fun x => !x.2 then some (-0xDEAD, p) else performDown semId tidNow p := by
    unfold sysSemaphoreDown
    rw [hEn, if_pos rfl]
    dsimp only
    rw [hRun]
  refine ⟨hfix, ?_, ?_⟩
  · constructor
    · intro hres
      by_cases hany : (f2.any fun x => !x.2) = true
      · exact hany
      · exfalso
        rw [hsys, if_neg hany] at hres
        have := performDown_ret semId tidNow p (-0xDEAD) p hres
        norm_num at this
    · intro hany
      rw [hsys, if_pos hany]
  · intro hany
    rw [hsys, if_neg (by simp [hany])]

/-- Witness for claim C3: the concrete circular-wait process; thread 1
requesting semaphore 1 leaves both threads unfinishable at the fixed
point, so the syscall returns -0xDEAD without touching the state. -/
theorem claim_C3_witness :
    deadlockProc.isDlDetEnable = true ∧
    sysSemaphoreDown 1 1 deadlockProc = some (-0xDEAD, deadlockProc) := by
  have h := claim_C3 1 1 deadlockProc [(1, false), (2, false)] [(0, 0), (1, 0)]
    rfl (by decide)
  exact ⟨rfl, h.2.1.mpr (by decide)⟩

end RCore
